import Mathlib

/-!
A verification development for the partial-evaluation subsystem of a
rule-based policy engine (`polar-core`): the per-variable constraint
accumulator (`Constraints`), the resumable type-compatibility check
(`IsaConstraintCheck`), and the simplification pass over binding sets
(`simplify.rs`).

The term data model (`Term`/`Value`/`Operation`/`Symbol`, in `terms.rs`)
is external to the two examined source files; it is modelled here from the
specification's data-model section.  A Rust `Term` wraps a `Value`
together with source-location bookkeeping which plays no semantic role
(`clone_with_value` and `new_temporary` only move `Value`s around), so
`Term` is identified with `Value` in this embedding.
-/

namespace Polar

/-- Modelled from the spec: an interned variable name (`Symbol` in
`terms.rs`, which is not part of the examined source).  The spec's
"temporary" flag is derivable from the naming convention; see
`Symbol.is_temporary_var`. -/
structure Symbol where
  name : String
deriving DecidableEq, Repr

/-- Modelled from the spec: temporary symbols are marked by a naming
convention (internally minted names begin with an underscore). -/
def Symbol.is_temporary_var (s : Symbol) : Bool :=
  match s.name.data.head? with
  | some c => c = '_'
  | none => false

/-- The operators relevant to the partial-evaluation core: `Unify`, `Isa`,
`Dot`, `And`, and the comparison family. -/
inductive Operator where
  | Dot
  | Unify
  | Isa
  | And
  | Lt
  | Gt
  | Leq
  | Geq
  | Eq
  | Neq
deriving DecidableEq, Repr

/-- Modelled from the spec: a type/shape matcher; the `Instance` pattern
carries a class tag (the `fields` of the Rust `InstanceLiteral` play no
role in this core and are omitted). -/
inductive Pattern where
  | Instance (tag : Symbol)
deriving DecidableEq, Repr

mutual

/-- Modelled from the spec: the `Value` variants relevant to this core
(`Variable`, `Partial`, `Expression`, `Pattern`, and opaque scalars). -/
inductive Value where
  | Number (n : Int)
  | String (s : String)
  | Boolean (b : Bool)
  | Variable (sym : Symbol)
  | Pattern (p : Pattern)
  | Expression (op : Operation)
  | Partial (c : Constraints)

/-- `Operation { operator, args }`: an operator applied to an ordered
argument list. -/
inductive Operation where
  | mk (operator : Operator) (args : List Value)

/-- `Constraints { operations, variable }`: the accumulator's state — an
ordered operation list scoped to one named variable. -/
inductive Constraints where
  | mk (operations : List Operation) (var : Symbol)

end

/-- A `Term` is a `Value` (the Rust `Term`'s extra source information is
semantically inert and dropped). -/
abbrev Term := Value

def Operation.operator : Operation → Operator
  | .mk o _ => o

def Operation.args : Operation → List Term
  | .mk _ a => a

def Constraints.operations : Constraints → List Operation
  | .mk ops _ => ops

/-- `Constraints::name`: the accumulator's variable. -/
def Constraints.name : Constraints → Symbol
  | .mk _ v => v

mutual

def beqValue : Value → Value → Bool
  | .Number a, .Number b => a == b
  | .String a, .String b => a == b
  | .Boolean a, .Boolean b => a == b
  | .Variable a, .Variable b => a == b
  | .Pattern a, .Pattern b => a == b
  | .Expression a, .Expression b => beqOperation a b
  | .Partial a, .Partial b => beqConstraints a b
  | _, _ => false
  termination_by structural a => a

def beqOperation : Operation → Operation → Bool
  | .mk o1 a1, .mk o2 a2 => o1 == o2 && beqArgs a1 a2
  termination_by structural a => a

def beqConstraints : Constraints → Constraints → Bool
  | .mk ops1 v1, .mk ops2 v2 => beqOps ops1 ops2 && v1 == v2
  termination_by structural a => a

def beqArgs : List Value → List Value → Bool
  | [], [] => true
  | x :: xs, y :: ys => beqValue x y && beqArgs xs ys
  | _, _ => false
  termination_by structural a => a

def beqOps : List Operation → List Operation → Bool
  | [], [] => true
  | x :: xs, y :: ys => beqOperation x y && beqOps xs ys
  | _, _ => false
  termination_by structural a => a

end

mutual

theorem beqValue_iff : ∀ (a b : Value), beqValue a b = true ↔ a = b
  | .Number x, b => by cases b <;> simp [beqValue]
  | .String x, b => by cases b <;> simp [beqValue]
  | .Boolean x, b => by cases b <;> simp [beqValue]
  | .Variable x, b => by cases b <;> simp [beqValue]
  | .Pattern x, b => by cases b <;> simp [beqValue]
  | .Expression o1, b => by
      cases b <;> simp [beqValue]
      exact beqOperation_iff o1 _
  | .Partial c1, b => by
      cases b <;> simp [beqValue]
      exact beqConstraints_iff c1 _

theorem beqOperation_iff : ∀ (a b : Operation), beqOperation a b = true ↔ a = b
  | .mk o1 a1, .mk o2 a2 => by
      simp [beqOperation, Bool.and_eq_true, beqArgs_iff a1 a2]

theorem beqConstraints_iff : ∀ (a b : Constraints), beqConstraints a b = true ↔ a = b
  | .mk ops1 v1, .mk ops2 v2 => by
      simp [beqConstraints, Bool.and_eq_true, beqOps_iff ops1 ops2]

theorem beqArgs_iff : ∀ (a b : List Value), beqArgs a b = true ↔ a = b
  | [], b => by cases b <;> simp [beqArgs]
  | x :: xs, b => by
      cases b with
      | nil => simp [beqArgs]
      | cons y ys => simp [beqArgs, beqValue_iff x y, beqArgs_iff xs ys]

theorem beqOps_iff : ∀ (a b : List Operation), beqOps a b = true ↔ a = b
  | [], b => by cases b <;> simp [beqOps]
  | x :: xs, b => by
      cases b with
      | nil => simp [beqOps]
      | cons y ys => simp [beqOps, beqOperation_iff x y, beqOps_iff xs ys]

end

instance : DecidableEq Value :=
  fun a b => decidable_of_iff (beqValue a b = true) (beqValue_iff a b)

instance : DecidableEq Operation :=
  fun a b => decidable_of_iff (beqOperation a b = true) (beqOperation_iff a b)

instance : DecidableEq Constraints :=
  fun a b => decidable_of_iff (beqConstraints a b = true) (beqConstraints_iff a b)

/-- `Term::new_temporary`: wrap a value as a term (the dropped source-info
field is what made the Rust version "temporary"). -/
def Term.new_temporary (v : Value) : Term := v

/-- `Term::clone_with_value`: a copy of the term carrying a new value. -/
def Term.clone_with_value (_t : Term) (v : Value) : Term := v

/-- `Constraints::new`: an empty accumulator for `variable`. -/
def Constraints.new (v : Symbol) : Constraints := .mk [] v

/-- `Constraints::variable_term`: the reserved receiver variable `_this`. -/
def Constraints.variable_term (_c : Constraints) : Term :=
  Term.new_temporary (.Variable ⟨"_this"⟩)

/-- `Constraints::unify`: append `Unify(receiver, other)`. -/
def Constraints.unify (c : Constraints) (other : Term) : Constraints :=
  .mk (c.operations ++ [.mk .Unify [c.variable_term, other]]) c.name

/-- The comparison-operator family accepted by the assertion in
`Constraints::compare`. -/
def comparisonOperator (operator : Operator) : Bool :=
  match operator with
  | .Lt | .Gt | .Leq | .Geq | .Eq | .Neq => true
  | _ => false

/-- `Constraints::compare`: append the comparison with the receiver as left
operand; `none` models the assertion failure on a non-comparison operator. -/
def Constraints.compare (c : Constraints) (operator : Operator) (other : Term) : Option Constraints :=
  if comparisonOperator operator then
    some (.mk (c.operations ++ [.mk operator [c.variable_term, other]]) c.name)
  else none

/-- `Constraints::lookup`: append `Unify(value, Dot(receiver, field))` and
return a fresh partial for `value`'s symbol.  `none` models the panics: the
assertion that `field` is a string, and `value.as_symbol().unwrap()`. -/
def Constraints.lookup (c : Constraints) (field : Term) (value : Term) : Option (Constraints × Term) :=
  match field with
  | .String _ =>
    let c' := Constraints.mk
      (c.operations ++
        [.mk .Unify [value, Term.new_temporary (.Expression (.mk .Dot [c.variable_term, field]))]])
      c.name
    match value with
    | .Variable name => some (c', Term.new_temporary (.Partial (Constraints.new name)))
    | _ => none
  | _ => none

/-- `Constraints::into_term`. -/
def Constraints.into_term (c : Constraints) : Term :=
  Term.new_temporary (.Partial c)

/-- `Constraints::into_expression`: the conjunction of every recorded
operation, each wrapped as its own expression term, in original order. -/
def Constraints.into_expression (c : Constraints) : Term :=
  Term.new_temporary (.Expression (.mk .And
    (c.operations.map (fun op => Term.new_temporary (.Expression op)))))

/-- `Constraints::clone_with_name`. -/
def Constraints.clone_with_name (c : Constraints) (name : Symbol) : Constraints :=
  .mk c.operations name

/-- `Constraints::clone_with_operations`. -/
def Constraints.clone_with_operations (c : Constraints) (operations : List Operation) : Constraints :=
  .mk operations c.name

/-- Modelled from the spec: the event vocabulary this core produces for the
driver — a "done with result" signal, and the external subclass question
carrying the fresh call id and both class tags. -/
inductive QueryEvent where
  | Done (result : Bool)
  | ExternalIsSubclass (call_id : Nat) (left_class_tag : Symbol) (right_class_tag : Symbol)
deriving DecidableEq, Repr

/-- Modelled from the spec: the internal-state error signalled by a
mismatched resumption. -/
inductive OperationalError where
  | InvalidState (msg : String)
deriving DecidableEq, Repr

/-- Modelled from the spec: the external shared call-id counter
(`next() → u64`, monotonically increasing), passed as explicit state:
`counterNext n` returns the fresh id and the advanced counter. -/
def counterNext (counter : Nat) : Nat × Nat := (counter, counter + 1)

/-- The state of `IsaConstraintCheck`: prior operations (consumed
back-to-front), the proposed class tag, the pending oracle answer, and the
id of the last issued oracle request. -/
structure IsaConstraintCheck where
  existing : List Operation
  proposed_tag : Option Symbol
  result : Option Bool
  last_call_id : Nat
deriving DecidableEq

/-- `IsaConstraintCheck::new`: pop the proposed operation's right operand
and extract its class tag when it is an instance pattern.  `none` models
the `pop().unwrap()` panic on an argument-less proposed operation. -/
def IsaConstraintCheck.new (existing : List Operation) (proposed : Operation) :
    Option IsaConstraintCheck :=
  match proposed.args.getLast? with
  | none => none
  | some right =>
    let proposed_tag : Option Symbol :=
      match right with
      | .Pattern (.Instance tag) => some tag
      | _ => none
    some ⟨existing, proposed_tag, none, 0⟩

/-- `Constraints::isa`: build the check from the operations recorded so
far and the new `Isa` operation, then append that operation. -/
def Constraints.isa (c : Constraints) (other : Term) : Constraints × Option IsaConstraintCheck :=
  let isa_op := Operation.mk .Isa [c.variable_term, other]
  let constraint_check := IsaConstraintCheck.new c.operations isa_op
  (.mk (c.operations ++ [isa_op]) c.name, constraint_check)

/-- `IsaConstraintCheck::check_constraint`.  The Rust method reads
`self.proposed_tag`, may set `self.last_call_id`, and draws a fresh id from
the shared counter; those three pieces of state are passed explicitly.
Returns `some (event?, last_call_id', counter')`; `none` models the two
panics (`pop().unwrap()` on an argument-less `Isa` constraint, and
`proposed_tag.clone().unwrap()` when no tag was proposed). -/
def IsaConstraintCheck.check_constraint (proposed_tag : Option Symbol) (constraint : Operation)
    (last_call_id counter : Nat) : Option (Option QueryEvent × Nat × Nat) :=
  if constraint.operator ≠ .Isa then some (none, last_call_id, counter)
  else
    match constraint.args.getLast? with
    | none => none
    | some right =>
      match right with
      | .Pattern (.Instance tag) =>
        match proposed_tag with
        | none => none
        | some ptag =>
          let (call_id, counter') := counterNext counter
          some (some (.ExternalIsSubclass call_id ptag tag), call_id, counter')
      | _ => some (none, last_call_id, counter)

/-- The `loop` in `IsaConstraintCheck::run`.  Rust pops operations from the
end of `existing` (most recently added first); the loop here recurses
structurally over the reversed list.  Returns the produced event, the
remaining `existing` (restored to original order), the updated
`last_call_id`, and the counter; `none` models a panic. -/
def IsaConstraintCheck.runLoop (proposed_tag : Option Symbol) (last_call_id counter : Nat) :
    List Operation → Option (QueryEvent × List Operation × Nat × Nat)
  | [] => some (.Done true, [], last_call_id, counter)
  | constraint :: rest =>
    match IsaConstraintCheck.check_constraint proposed_tag constraint last_call_id counter with
    | none => none
    | some (some event, last_call_id', counter') =>
      some (event, rest.reverse, last_call_id', counter')
    | some (none, last_call_id', counter') =>
      IsaConstraintCheck.runLoop proposed_tag last_call_id' counter' rest

/-- `IsaConstraintCheck::run` (the `Runnable` step): the only `Err`-free
exit paths are completion events or a suspension on an oracle request;
`none` models a panic inside the loop. -/
def IsaConstraintCheck.run (self : IsaConstraintCheck) (counter : Nat) :
    Option (QueryEvent × IsaConstraintCheck × Nat) :=
  if self.proposed_tag.isNone then some (.Done true, self, counter)
  else
    let taken := self.result
    let self₁ := { self with result := none }
    if taken = some false then some (.Done false, self₁, counter)
    else
      match IsaConstraintCheck.runLoop self₁.proposed_tag self₁.last_call_id counter
        self₁.existing.reverse with
      | none => none
      | some (event, existing', last_call_id', counter') =>
        some (event, { self₁ with existing := existing', last_call_id := last_call_id' }, counter')

/-- `IsaConstraintCheck::external_question_result` (the spec's `resume`):
returns the result of the call together with the (possibly) updated check. -/
def IsaConstraintCheck.external_question_result (self : IsaConstraintCheck) (call_id : Nat)
    (answer : Bool) : Except OperationalError Unit × IsaConstraintCheck :=
  if call_id ≠ self.last_call_id then
    (.error (.InvalidState "Unexpected call id"), self)
  else
    (.ok (), { self with result := some answer })

/-- `is_this_arg` (simplify.rs): whether a value is a receiver reference —
the bare `_this` variable, or (asserted) a `Dot` expression.  `none` models
the panics: `args.get(0).unwrap()` on an argument-less `Dot`, and the
assertion that a `Dot` expression's first argument is the bare receiver. -/
def is_this_arg (value : Value) : Option Bool :=
  match value with
  | .Expression (.mk .Dot args) =>
    match args.head? with
    | some (.Variable sym) => if sym.name = "_this" then some true else none
    | some _ => none
    | none => none
  | .Variable sym => if sym.name = "_this" then some true else some false
  | _ => some false

/-- `sub_this` (inside `Simplifier::fold_operation`): substitute
`replacement` for the receiver in one operand.  A `Dot` operand meeting a
`Dot`-rooted replacement is rewritten to `Dot(replacement, field)`; any
other operand is replaced outright when `is_this_arg` holds of it and kept
otherwise.  `none` models the panic `args.get(1).unwrap()` on a `Dot` with
fewer than two arguments, and the panics of `is_this_arg`. -/
def sub_this (term replacement : Term) : Option Term :=
  match term, replacement with
  | .Expression (.mk .Dot args), .Expression (.mk .Dot _) =>
    match args[1]? with
    | none => none
    | some a1 =>
      some (Term.clone_with_value term (.Expression (.mk .Dot [replacement, a1])))
  | _, _ =>
    match is_this_arg term with
    | none => none
    | some true => some replacement
    | some false => some term

/-- Whether a term is a `Dot`-rooted expression. -/
def isDotExpression (t : Term) : Bool :=
  match t with
  | .Expression (.mk .Dot _) => true
  | _ => false

/-- Whether a term is the bare receiver reference `_this`. -/
def isThisVariable (t : Term) : Bool :=
  match t with
  | .Variable sym => sym.name = "_this"
  | _ => false

/-- The class tag `IsaConstraintCheck::new` extracts from the proposed
operation's popped right operand. -/
def proposedTagOf (t : Term) : Option Symbol :=
  match t with
  | .Pattern (.Instance tag) => some tag
  | _ => none

/-- The shape `check_constraint` issues an oracle request for: an `Isa`
operation whose last argument is an instance pattern, paired with that
pattern's tag. -/
def isaInstanceTag (op : Operation) : Option Symbol :=
  if op.operator = .Isa then
    match op.args.getLast? with
    | some (.Pattern (.Instance tag)) => some tag
    | _ => none
  else none

/-- One accumulator-building call: `unify`, `compare` or `isa` with its
argument. -/
inductive AccCall where
  | unifyCall (t : Term)
  | compareCall (operator : Operator) (t : Term)
  | isaCall (t : Term)

/-- Whether a call meets `Constraints::compare`'s operator precondition
(`unify` and `isa` have none). -/
def AccCall.valid : AccCall → Bool
  | .compareCall operator _ => comparisonOperator operator
  | _ => true

/-- The single operation the accumulator appends for a call. -/
def AccCall.op : AccCall → Operation
  | .unifyCall t => .mk .Unify [Term.new_temporary (.Variable ⟨"_this"⟩), t]
  | .compareCall operator t => .mk operator [Term.new_temporary (.Variable ⟨"_this"⟩), t]
  | .isaCall t => .mk .Isa [Term.new_temporary (.Variable ⟨"_this"⟩), t]

/-- Apply one call to the accumulator (the check `isa` returns is dropped;
only the accumulator state matters here). -/
def applyCall (c : Constraints) : AccCall → Option Constraints
  | .unifyCall t => some (c.unify t)
  | .compareCall operator t => c.compare operator t
  | .isaCall t => some (c.isa t).1

/-- Apply a sequence of calls left to right. -/
def applyCalls (c : Constraints) : List AccCall → Option Constraints
  | [] => some c
  | call :: rest =>
    match applyCall c call with
    | none => none
    | some c' => applyCalls c' rest

mutual

/-- The number of `Partial` nodes in a value: the measure by which each
changing pass of the Simplifier's fixed-point loop decreases. -/
def countValue : Value → Nat
  | .Expression op => countOperation op
  | .Partial c => countConstraints c + 1
  | _ => 0
  termination_by structural v => v

def countOperation : Operation → Nat
  | .mk _ args => countArgs args
  termination_by structural o => o

def countConstraints : Constraints → Nat
  | .mk ops _ => countOps ops
  termination_by structural c => c

def countArgs : List Value → Nat
  | [] => 0
  | a :: rest => countValue a + countArgs rest
  termination_by structural l => l

def countOps : List Operation → Nat
  | [] => 0
  | o :: rest => countOperation o + countOps rest
  termination_by structural l => l

end

/-- Whether a value is an accumulator-as-term. -/
def isPartialValue (v : Value) : Bool :=
  match v with
  | .Partial _ => true
  | _ => false

/-- Substitute the replacement into each argument of one operation — the
`o.args.iter().map(|a| sub_this(a, replacement))` step of `map_ops`. -/
def subArgs (replacement : Term) : List Term → Option (List Term)
  | [] => some []
  | a :: rest =>
    match sub_this a replacement, subArgs replacement rest with
    | some a', some rest' => some (a' :: rest')
    | _, _ => none

/-- `map_ops` (inside `Simplifier::fold_operation`): substitute the
replacement for the receiver in every operation of the partial and wrap
each rewritten operation as its own expression term.  (The Rust closure
also folds each rewritten operation in the same pass; in this bottom-up
model — see `fold_term` — sub-terms were already folded before the rule
fired, and further rewriting is performed by the later passes of the
fixed-point loop.) -/
def map_ops (replacement : Term) : List Operation → Option (List Term)
  | [] => some []
  | o :: rest =>
    match subArgs replacement o.args, map_ops replacement rest with
    | some args', some rest' =>
      some (Term.clone_with_value replacement (.Expression (.mk o.operator args')) :: rest')
    | _, _ => none

mutual

/-- Modelled from the spec: the generic term-tree fold (`crate::folder`) is
not part of the examined source; per the specification the Simplifier's
rewrite rule is "applied at every term in a bottom-up traversal, repeated
until no further change occurs across a full pass".  Sub-terms are folded
first and `Simplifier::fold_operation`'s `Unify` rewriting (which is in
the examined source, see `fold_operation`) is applied once at each
operation node; the fixed-point loop supplies the repetition.  `none`
models the panics reachable through `sub_this` and the
`args.get(..).unwrap()` calls of the `Unify` arm. -/
def fold_term : Value → Option Value
  | .Number n => some (.Number n)
  | .String s => some (.String s)
  | .Boolean b => some (.Boolean b)
  | .Variable sym => some (.Variable sym)
  | .Pattern p => some (.Pattern p)
  | .Expression op =>
    match fold_operation op with
    | some op' => some (.Expression op')
    | none => none
  | .Partial (.mk ops v) =>
    match foldOps ops with
    | some ops' => some (.Partial (.mk ops' v))
    | none => none
  termination_by structural v => v

def foldOps : List Operation → Option (List Operation)
  | [] => some []
  | o :: rest =>
    match fold_operation o, foldOps rest with
    | some o', some rest' => some (o' :: rest')
    | _, _ => none
  termination_by structural l => l

def foldArgs : List Value → Option (List Value)
  | [] => some []
  | a :: rest =>
    match fold_term a, foldArgs rest with
    | some a', some rest' => some (a' :: rest')
    | _, _ => none
  termination_by structural l => l

/-- `Simplifier::fold_operation`: a `Unify` one of whose first two operands
is a partial and the other an expression is replaced by the conjunction of
the partial's operations with the expression substituted for the receiver
(`map_ops`), both taken as they stand, exactly as the Rust arm matches the
unfolded `o.args`; every other operation is rebuilt with folded arguments
(the generic `fold_operation(o, self)` fallback).  `none` models the
`o.args.get(0/1).unwrap()` panics on a `Unify` with fewer than two
arguments. -/
def fold_operation : Operation → Option Operation
  | .mk operator args =>
    if operator = .Unify then
      match args with
      | left :: right :: _ =>
        match left, right with
        | .Partial c, .Expression _ =>
          match map_ops right c.operations with
          | some ts => some (.mk .And ts)
          | none => none
        | .Expression _, .Partial c =>
          match map_ops left c.operations with
          | some ts => some (.mk .And ts)
          | none => none
        | _, _ =>
          match foldArgs args with
          | some fargs => some (.mk .Unify fargs)
          | none => none
      | _ => none
    else
      match foldArgs args with
      | some fargs => some (.mk operator fargs)
      | none => none
  termination_by structural o => o

end

/-- `simplify_partial`'s fixed-point loop (`loop { new = fold(term); if
new == term break; term = new }`), with explicit fuel standing in for the
unbounded Rust `loop`: `none` when the fuel runs out before a fixed point
or a pass panics. -/
def simplifyLoop : Nat → Term → Option Term
  | 0, _ => none
  | fuel + 1, term =>
    match fold_term term with
    | none => none
    | some new => if new = term then some new else simplifyLoop fuel new

/-- `simplify_partial`: run the fixed-point loop.  The fuel
`countValue term + 1` is proved sufficient for accumulator-built terms by
the termination theorem below (each changing pass strictly decreases
`countValue`). -/
def simplifyPartialTerm (term : Term) : Option Term :=
  simplifyLoop (countValue term + 1) term

/-- Modelled from the spec: a binding set — a mapping from variable name
to term, "read in full and returned in full"; represented as an
association list with distinct keys. -/
abbrev Bindings := List (Symbol × Term)

/-- The `get_roots` walk and per-root rewrite loop of `simplify_bindings`:
each non-temporary binding to a partial is rewritten to a fixed point and
re-inserted under its key.  With distinct keys the Rust `HashMap` loop is
this pointwise map. -/
def simplifyRoots : Bindings → Option Bindings
  | [] => some []
  | (name, val) :: rest =>
    match (if !name.is_temporary_var && isPartialValue val then
        simplifyPartialTerm val
      else some val) with
    | none => none
    | some val' =>
      match simplifyRoots rest with
      | none => none
      | some rest' => some ((name, val') :: rest')

/-- `to_expressions`: convert every binding to a partial (root or not)
into its conjunctive expression form. -/
def to_expressions (bindings : Bindings) : Bindings :=
  bindings.map (fun p =>
    match p with
    | (name, .Partial c) => (name, Constraints.into_expression c)
    | other => other)

/-- `remove_temporaries`: delete every temporary-symbol binding. -/
def remove_temporaries (bindings : Bindings) : Bindings :=
  bindings.filter (fun p => !p.1.is_temporary_var)

/-- `simplify_bindings`: rewrite the root bindings to a fixed point, then
convert remaining partials to expressions, then drop temporaries. -/
def simplify_bindings (bindings : Bindings) : Option Bindings :=
  match simplifyRoots bindings with
  | none => none
  | some afterRoots => some (remove_temporaries (to_expressions afterRoots))

/-- The invariant `Simplifier`'s rule relies on, at one `Unify`: when one
of the first two operands is an accumulator-as-term, the opposite operand
(the substitution replacement) contains no `Partial` node.  Lookup
chaining only ever unifies a partial with a `Dot` expression, so
accumulator-built terms satisfy this. -/
def fireCondB (args : List Value) : Bool :=
  match args with
  | l :: r :: _ =>
    (!isPartialValue l || (countValue r == 0)) && (!isPartialValue r || (countValue l == 0))
  | _ => true

/-- A `Unify` operation carries at least the two operands its rewrite rule
unwraps (`args.get(0/1).unwrap()`). -/
def unifyArgsOk (operator : Operator) (args : List Value) : Bool :=
  (operator != .Unify) || decide (2 ≤ args.length)

/-- The shape `sub_this` tolerates of an operand inside an accumulator's
operation list: a `Dot`-rooted operand is exactly a two-argument
`Dot(receiver, field)` (this is what `is_this_arg` asserts and what
`lookup` records). -/
def dotArgOk (v : Value) : Bool :=
  match v with
  | .Expression (.mk .Dot dargs) =>
    match dargs with
    | [.Variable sym, _] => sym.name = "_this"
    | _ => false
  | _ => true

/-- `dotArgOk` over a whole argument list. -/
def dotArgsOk (args : List Value) : Bool :=
  args.all dotArgOk

mutual

/-- The structural invariant of accumulator-built terms, under which the
Simplifier's passes are panic-free and strictly decrease `countValue`
until a fixed point: partials carry operation lists in accumulator shape
(`listOp`), and every `Unify` anywhere satisfies `fireCondB` and
`unifyArgsOk`. -/
def okValue : Value → Bool
  | .Expression op => okOperation op
  | .Partial (.mk ops _) => listOps ops
  | _ => true
  termination_by structural v => v

def okOperation : Operation → Bool
  | .mk operator args => okArgs args && fireCondB args && unifyArgsOk operator args
  termination_by structural o => o

def okArgs : List Value → Bool
  | [] => true
  | a :: rest => okValue a && okArgs rest
  termination_by structural l => l

/-- The stronger invariant of an operation sitting directly in a partial's
operation list: additionally its operator is not `Dot` and its operands
satisfy `dotArgOk`, so that `map_ops`'s substitution cannot panic. -/
def listOp : Operation → Bool
  | .mk operator args =>
    okArgs args && fireCondB args && unifyArgsOk operator args &&
      (operator != .Dot) && dotArgsOk args
  termination_by structural o => o

def listOps : List Operation → Bool
  | [] => true
  | o :: rest => listOp o && listOps rest
  termination_by structural l => l

end

/-- What one pass guarantees for each folded argument. -/
def FoldRel (a' a : Value) : Prop :=
  okValue a' = true ∧ countValue a' ≤ countValue a ∧
  (a' = a ∨ countValue a' < countValue a) ∧
  isPartialValue a' = isPartialValue a ∧
  (dotArgOk a = true → dotArgOk a' = true)

/-- What `sub_this` guarantees for each substituted argument (under a
`Partial`-free, invariant-respecting replacement). -/
def SubRel (a' a : Value) : Prop :=
  okValue a' = true ∧ countValue a' ≤ countValue a ∧
  (isPartialValue a' = true → a' = a)

theorem sub_this_spec (a r : Term)
    (ha : okValue a = true) (hd : dotArgOk a = true)
    (hr : okValue r = true) (hrc : countValue r = 0) (hrp : isPartialValue r = false) :
    ∃ a', sub_this a r = some a' ∧ SubRel a' a := by
  cases a with
  | Expression op =>
    cases op with
    | mk operator dargs =>
      cases operator with
      | Dot =>
        cases dargs with
        | nil => simp [dotArgOk] at hd
        | cons v0 rest =>
          cases rest with
          | nil => cases v0 <;> simp [dotArgOk] at hd
          | cons x rest2 =>
            cases rest2 with
            | cons y rest3 => cases v0 <;> simp [dotArgOk] at hd
            | nil =>
              cases v0 with
              | Variable sym =>
                simp only [dotArgOk, decide_eq_true_eq] at hd
                have hx : okValue x = true := by
                  have ha2 := ha
                  simp [okValue, okOperation, okArgs, Bool.and_eq_true] at ha2
                  tauto
                cases r with
                | Expression rop =>
                  cases rop with
                  | mk rop2 rargs =>
                    cases rop2 with
                    | Dot =>
                      refine ⟨.Expression (.mk .Dot [.Expression (.mk .Dot rargs), x]),
                        rfl, ?_, ?_, ?_⟩
                      · simp only [countValue, countOperation] at hrc
                        simp [okValue, okOperation, okArgs, fireCondB, unifyArgsOk,
                          countValue, countOperation, isPartialValue, hx, hrc]
                        simp [okValue, okOperation] at hr
                        tauto
                      · simp only [countValue, countOperation] at hrc
                        simp [countValue, countOperation, countArgs, hrc]
                      · intro hp
                        simp [isPartialValue] at hp
                    | Unify => exact ⟨_, by simp [sub_this, is_this_arg, hd], hr,
                        by omega, by intro hp; simp [isPartialValue] at hp⟩
                    | Isa => exact ⟨_, by simp [sub_this, is_this_arg, hd], hr,
                        by omega, by intro hp; simp [isPartialValue] at hp⟩
                    | And => exact ⟨_, by simp [sub_this, is_this_arg, hd], hr,
                        by omega, by intro hp; simp [isPartialValue] at hp⟩
                    | Lt => exact ⟨_, by simp [sub_this, is_this_arg, hd], hr,
                        by omega, by intro hp; simp [isPartialValue] at hp⟩
                    | Gt => exact ⟨_, by simp [sub_this, is_this_arg, hd], hr,
                        by omega, by intro hp; simp [isPartialValue] at hp⟩
                    | Leq => exact ⟨_, by simp [sub_this, is_this_arg, hd], hr,
                        by omega, by intro hp; simp [isPartialValue] at hp⟩
                    | Geq => exact ⟨_, by simp [sub_this, is_this_arg, hd], hr,
                        by omega, by intro hp; simp [isPartialValue] at hp⟩
                    | Eq => exact ⟨_, by simp [sub_this, is_this_arg, hd], hr,
                        by omega, by intro hp; simp [isPartialValue] at hp⟩
                    | Neq => exact ⟨_, by simp [sub_this, is_this_arg, hd], hr,
                        by omega, by intro hp; simp [isPartialValue] at hp⟩
                | Number n => exact ⟨_, by simp [sub_this, is_this_arg, hd], hr,
                    by omega, by intro hp; simp [isPartialValue] at hp⟩
                | String s => exact ⟨_, by simp [sub_this, is_this_arg, hd], hr,
                    by omega, by intro hp; simp [isPartialValue] at hp⟩
                | Boolean b => exact ⟨_, by simp [sub_this, is_this_arg, hd], hr,
                    by omega, by intro hp; simp [isPartialValue] at hp⟩
                | Variable sym2 => exact ⟨_, by simp [sub_this, is_this_arg, hd], hr,
                    by omega, by intro hp; simp [isPartialValue] at hp⟩
                | Pattern p => exact ⟨_, by simp [sub_this, is_this_arg, hd], hr,
                    by omega, by intro hp; simp [isPartialValue] at hp⟩
                | Partial c => simp [isPartialValue] at hrp
              | Number n => simp [dotArgOk] at hd
              | String s => simp [dotArgOk] at hd
              | Boolean b => simp [dotArgOk] at hd
              | Pattern p => simp [dotArgOk] at hd
              | Expression op2 => simp [dotArgOk] at hd
              | Partial c => simp [dotArgOk] at hd
      | Unify => exact ⟨_, by cases r <;> simp [sub_this, is_this_arg], ha, le_rfl, fun _ => rfl⟩
      | Isa => exact ⟨_, by cases r <;> simp [sub_this, is_this_arg], ha, le_rfl, fun _ => rfl⟩
      | And => exact ⟨_, by cases r <;> simp [sub_this, is_this_arg], ha, le_rfl, fun _ => rfl⟩
      | Lt => exact ⟨_, by cases r <;> simp [sub_this, is_this_arg], ha, le_rfl, fun _ => rfl⟩
      | Gt => exact ⟨_, by cases r <;> simp [sub_this, is_this_arg], ha, le_rfl, fun _ => rfl⟩
      | Leq => exact ⟨_, by cases r <;> simp [sub_this, is_this_arg], ha, le_rfl, fun _ => rfl⟩
      | Geq => exact ⟨_, by cases r <;> simp [sub_this, is_this_arg], ha, le_rfl, fun _ => rfl⟩
      | Eq => exact ⟨_, by cases r <;> simp [sub_this, is_this_arg], ha, le_rfl, fun _ => rfl⟩
      | Neq => exact ⟨_, by cases r <;> simp [sub_this, is_this_arg], ha, le_rfl, fun _ => rfl⟩
  | Variable sym =>
    by_cases hsym : sym.name = "_this"
    · exact ⟨r, by cases r <;> simp [sub_this, is_this_arg, hsym], hr,
        by omega, by intro hp; rw [hp] at hrp; cases hrp⟩
    · exact ⟨.Variable sym, by cases r <;> simp [sub_this, is_this_arg, hsym],
        ha, le_rfl, fun _ => rfl⟩
  | Number n => exact ⟨_, by cases r <;> simp [sub_this, is_this_arg], ha, le_rfl, fun _ => rfl⟩
  | String s => exact ⟨_, by cases r <;> simp [sub_this, is_this_arg], ha, le_rfl, fun _ => rfl⟩
  | Boolean b => exact ⟨_, by cases r <;> simp [sub_this, is_this_arg], ha, le_rfl, fun _ => rfl⟩
  | Pattern p => exact ⟨_, by cases r <;> simp [sub_this, is_this_arg], ha, le_rfl, fun _ => rfl⟩
  | Partial c => exact ⟨_, by cases r <;> simp [sub_this, is_this_arg], ha, le_rfl, fun _ => rfl⟩

theorem subArgs_spec (r : Term) (hr : okValue r = true) (hrc : countValue r = 0)
    (hrp : isPartialValue r = false) :
    ∀ (args : List Value), okArgs args = true → dotArgsOk args = true →
    ∃ args', subArgs r args = some args' ∧ List.Forall₂ SubRel args' args
  | [], _, _ => ⟨[], rfl, List.Forall₂.nil⟩
  | a :: rest, hok, hdot => by
    have hsplit : okValue a = true ∧ okArgs rest = true := by
      simpa [okArgs, Bool.and_eq_true] using hok
    have hdsplit : dotArgOk a = true ∧ dotArgsOk rest = true := by
      simpa [dotArgsOk, List.all_cons, Bool.and_eq_true] using hdot
    obtain ⟨a', hsub, hrel⟩ := sub_this_spec a r hsplit.1 hdsplit.1 hr hrc hrp
    obtain ⟨rest', hsr, hfrel⟩ := subArgs_spec r hr hrc hrp rest hsplit.2 hdsplit.2
    exact ⟨a' :: rest', by simp [subArgs, hsub, hsr], List.Forall₂.cons hrel hfrel⟩

theorem subrel_okArgs : ∀ {args' args : List Value},
    List.Forall₂ SubRel args' args → okArgs args' = true := by
  intro args' args h
  induction h with
  | nil => rfl
  | cons h2 _ ih =>
    simp only [okArgs, Bool.and_eq_true]
    exact ⟨h2.1, ih⟩

theorem subrel_count : ∀ {args' args : List Value},
    List.Forall₂ SubRel args' args → countArgs args' ≤ countArgs args := by
  intro args' args h
  induction h with
  | nil => exact le_rfl
  | cons h2 _ ih =>
    simp only [countArgs]
    exact Nat.add_le_add h2.2.1 ih

theorem subrel_fireCond : ∀ {args' args : List Value},
    List.Forall₂ SubRel args' args → fireCondB args = true → fireCondB args' = true := by
  intro args' args h hf
  cases h with
  | nil => rfl
  | cons h1 htail =>
    cases htail with
    | nil => rfl
    | cons h2 hrest =>
      rename_i a1 b1 a2 b2 l1 l2
      simp only [fireCondB, Bool.and_eq_true, Bool.or_eq_true, Bool.not_eq_true',
        beq_iff_eq] at hf ⊢
      obtain ⟨hf1, hf2⟩ := hf
      constructor
      · by_cases hpa : isPartialValue a1 = true
        · right
          have heq := h1.2.2 hpa
          rcases hf1 with hbad | hcount
          · rw [heq] at hpa
            rw [hpa] at hbad
            cases hbad
          · have := h2.2.1
            omega
        · left
          simpa using hpa
      · by_cases hpb : isPartialValue a2 = true
        · right
          have heq := h2.2.2 hpb
          rcases hf2 with hbad | hcount
          · rw [heq] at hpb
            rw [hpb] at hbad
            cases hbad
          · have := h1.2.1
            omega
        · left
          simpa using hpb

theorem fireCond_of_no_partials : ∀ {ts : List Value},
    (∀ t ∈ ts, isPartialValue t = false) → fireCondB ts = true := by
  intro ts h
  cases ts with
  | nil => rfl
  | cons l rest =>
    cases rest with
    | nil => rfl
    | cons rr rest2 =>
      simp only [fireCondB, Bool.and_eq_true, Bool.or_eq_true, Bool.not_eq_true']
      exact ⟨Or.inl (h l (by simp)), Or.inl (h rr (by simp))⟩

theorem dotArgOk_of_ne_dot (operator : Operator) (args : List Value)
    (h : operator ≠ .Dot) : dotArgOk (.Expression (.mk operator args)) = true := by
  cases operator with
  | Dot => exact absurd rfl h
  | Unify => rfl
  | Isa => rfl
  | And => rfl
  | Lt => rfl
  | Gt => rfl
  | Leq => rfl
  | Geq => rfl
  | Eq => rfl
  | Neq => rfl

theorem map_ops_spec (r : Term) (hr : okValue r = true) (hrc : countValue r = 0)
    (hrp : isPartialValue r = false) :
    ∀ (ops : List Operation), listOps ops = true →
    ∃ ts, map_ops r ops = some ts ∧ okArgs ts = true ∧ dotArgsOk ts = true ∧
      (∀ t ∈ ts, isPartialValue t = false) ∧ countArgs ts ≤ countOps ops
  | [], _ => ⟨[], rfl, rfl, rfl, by simp, le_rfl⟩
  | o :: rest, hops => by
    have hsplit : listOp o = true ∧ listOps rest = true := by
      simpa [listOps, Bool.and_eq_true] using hops
    obtain ⟨ts', hmo, hok', hdot', hnp', hcount'⟩ := map_ops_spec r hr hrc hrp rest hsplit.2
    cases o with
    | mk operator args =>
      have hfacts := hsplit.1
      simp only [listOp, Bool.and_eq_true, bne_iff_ne, ne_eq] at hfacts
      obtain ⟨⟨⟨⟨hargs, hfire⟩, hulen⟩, hnd⟩, hdargs⟩ := hfacts
      obtain ⟨args', hsa, hrel⟩ := subArgs_spec r hr hrc hrp args hargs hdargs
      refine ⟨.Expression (.mk operator args') :: ts', ?_, ?_, ?_, ?_, ?_⟩
      · simp [map_ops, Operation.args, hsa, hmo, Term.clone_with_value, Operation.operator]
      · simp only [okArgs, Bool.and_eq_true]
        refine ⟨?_, hok'⟩
        simp only [okValue, okOperation, Bool.and_eq_true]
        refine ⟨⟨subrel_okArgs hrel, subrel_fireCond hrel hfire⟩, ?_⟩
        have hlen : args'.length = args.length := hrel.length_eq
        simp only [unifyArgsOk, Bool.or_eq_true] at hulen ⊢
        rcases hulen with h | h
        · left; exact h
        · right; rw [hlen]; exact h
      · simp only [dotArgsOk, List.all_cons, Bool.and_eq_true]
        exact ⟨dotArgOk_of_ne_dot operator args' hnd, hdot'⟩
      · intro t ht
        rcases List.mem_cons.mp ht with rfl | ht'
        · rfl
        · exact hnp' t ht'
      · simp only [countArgs, countOps, countOperation]
        exact Nat.add_le_add (subrel_count hrel) hcount'

/-- What one pass guarantees for a folded operation. -/
def OpRel (o' o : Operation) : Prop :=
  okOperation o' = true ∧ countOperation o' ≤ countOperation o ∧
  (o' = o ∨ countOperation o' < countOperation o) ∧
  (listOp o = true → listOp o' = true) ∧
  (dotArgOk (.Expression o) = true → dotArgOk (.Expression o') = true)

theorem foldrel_okArgs : ∀ {fargs args : List Value},
    List.Forall₂ FoldRel fargs args → okArgs fargs = true := by
  intro fargs args h
  induction h with
  | nil => rfl
  | cons h2 _ ih =>
    simp only [okArgs, Bool.and_eq_true]
    exact ⟨h2.1, ih⟩

theorem foldrel_count : ∀ {fargs args : List Value},
    List.Forall₂ FoldRel fargs args → countArgs fargs ≤ countArgs args := by
  intro fargs args h
  induction h with
  | nil => exact le_rfl
  | cons h2 _ ih =>
    simp only [countArgs]
    exact Nat.add_le_add h2.2.1 ih

theorem foldrel_eq_or_lt : ∀ {fargs args : List Value},
    List.Forall₂ FoldRel fargs args →
    (fargs = args ∨ countArgs fargs < countArgs args) := by
  intro fargs args h
  induction h with
  | nil => exact Or.inl rfl
  | cons h2 htail ih =>
    rcases h2.2.2.1 with heq | hlt
    · rcases ih with ieq | ilt
      · exact Or.inl (by rw [heq, ieq])
      · right
        simp only [countArgs]
        have := h2.2.1
        omega
    · right
      simp only [countArgs]
      have := foldrel_count htail
      omega

theorem foldrel_fireCond : ∀ {fargs args : List Value},
    List.Forall₂ FoldRel fargs args → fireCondB args = true → fireCondB fargs = true := by
  intro fargs args h hf
  cases h with
  | nil => rfl
  | cons h1 htail =>
    cases htail with
    | nil => rfl
    | cons h2 hrest =>
      rename_i a1 b1 a2 b2 l1 l2
      simp only [fireCondB, Bool.and_eq_true, Bool.or_eq_true, Bool.not_eq_true',
        beq_iff_eq] at hf ⊢
      obtain ⟨hf1, hf2⟩ := hf
      constructor
      · rcases hf1 with hb | hc
        · left; rw [h1.2.2.2.1, hb]
        · right
          have := h2.2.1
          omega
      · rcases hf2 with hb | hc
        · left; rw [h2.2.2.2.1, hb]
        · right
          have := h1.2.1
          omega

theorem foldrel_dotArgs : ∀ {fargs args : List Value},
    List.Forall₂ FoldRel fargs args → dotArgsOk args = true → dotArgsOk fargs = true := by
  intro fargs args h hd
  induction h with
  | nil => rfl
  | cons h2 htail ih =>
    simp only [dotArgsOk, List.all_cons, Bool.and_eq_true] at hd ⊢
    exact ⟨h2.2.2.2.2 hd.1, ih hd.2⟩

theorem listOp_imp_ok (o : Operation) (h : listOp o = true) : okOperation o = true := by
  cases o with
  | mk operator args =>
    simp only [listOp, Bool.and_eq_true] at h
    simp only [okOperation, Bool.and_eq_true]
    exact ⟨⟨h.1.1.1.1, h.1.1.1.2⟩, h.1.1.2⟩

mutual

theorem fold_term_spec : ∀ (v : Value), okValue v = true →
    ∃ v', fold_term v = some v' ∧ FoldRel v' v
  | .Number n, _ => ⟨.Number n, rfl, rfl, le_rfl, Or.inl rfl, rfl, fun h => h⟩
  | .String s, _ => ⟨.String s, rfl, rfl, le_rfl, Or.inl rfl, rfl, fun h => h⟩
  | .Boolean b, _ => ⟨.Boolean b, rfl, rfl, le_rfl, Or.inl rfl, rfl, fun h => h⟩
  | .Variable sym, _ => ⟨.Variable sym, rfl, rfl, le_rfl, Or.inl rfl, rfl, fun h => h⟩
  | .Pattern p, _ => ⟨.Pattern p, rfl, rfl, le_rfl, Or.inl rfl, rfl, fun h => h⟩
  | .Expression op, hok => by
      obtain ⟨op', hfo, hrel⟩ := fold_operation_spec op hok
      refine ⟨.Expression op', by simp [fold_term, hfo], hrel.1, hrel.2.1, ?_, rfl,
        hrel.2.2.2.2⟩
      rcases hrel.2.2.1 with heq | hlt
      · exact Or.inl (by rw [heq])
      · exact Or.inr hlt
  | .Partial (.mk ops v), hok => by
      obtain ⟨ops', hf, hl, hc, heol⟩ := foldOps_spec ops hok
      refine ⟨.Partial (.mk ops' v), by simp [fold_term, hf], hl, ?_, ?_, rfl, fun _ => rfl⟩
      · simp only [countValue, countConstraints]
        omega
      · rcases heol with heq | hlt
        · exact Or.inl (by rw [heq])
        · right
          simp only [countValue, countConstraints]
          omega

theorem foldOps_spec : ∀ (ops : List Operation), listOps ops = true →
    ∃ ops', foldOps ops = some ops' ∧ listOps ops' = true ∧
      countOps ops' ≤ countOps ops ∧ (ops' = ops ∨ countOps ops' < countOps ops)
  | [], _ => ⟨[], rfl, rfl, le_rfl, Or.inl rfl⟩
  | o :: rest, hops => by
      have hsplit : listOp o = true ∧ listOps rest = true := by
        simpa [listOps, Bool.and_eq_true] using hops
      obtain ⟨o', hfo, hrel⟩ := fold_operation_spec o (listOp_imp_ok o hsplit.1)
      obtain ⟨rest', hfr, hl, hc, heol⟩ := foldOps_spec rest hsplit.2
      refine ⟨o' :: rest', by simp [foldOps, hfo, hfr], ?_, ?_, ?_⟩
      · simp only [listOps, Bool.and_eq_true]
        exact ⟨hrel.2.2.2.1 hsplit.1, hl⟩
      · simp only [countOps]
        exact Nat.add_le_add hrel.2.1 hc
      · rcases hrel.2.2.1 with heq | hlt
        · rcases heol with heq2 | hlt2
          · exact Or.inl (by rw [heq, heq2])
          · right
            simp only [countOps]
            have := hrel.2.1
            omega
        · right
          simp only [countOps]
          omega

theorem foldArgs_spec : ∀ (args : List Value), okArgs args = true →
    ∃ fargs, foldArgs args = some fargs ∧ List.Forall₂ FoldRel fargs args
  | [], _ => ⟨[], rfl, List.Forall₂.nil⟩
  | a :: rest, hok => by
      have hsplit : okValue a = true ∧ okArgs rest = true := by
        simpa [okArgs, Bool.and_eq_true] using hok
      obtain ⟨a', hfa, hrel⟩ := fold_term_spec a hsplit.1
      obtain ⟨rest', hfr, hfrel⟩ := foldArgs_spec rest hsplit.2
      exact ⟨a' :: rest', by simp [foldArgs, hfa, hfr], List.Forall₂.cons hrel hfrel⟩

theorem fold_operation_spec : ∀ (o : Operation), okOperation o = true →
    ∃ o', fold_operation o = some o' ∧ OpRel o' o
  | .mk operator args, hok => by
      have hparts : okArgs args = true ∧ fireCondB args = true ∧
          unifyArgsOk operator args = true := by
        simpa [okOperation, Bool.and_eq_true, and_assoc] using hok
      obtain ⟨hargs, hfire, hulen⟩ := hparts
      obtain ⟨fargs, hfa, hfrel⟩ := foldArgs_spec args hargs
      have hgen : OpRel (.mk operator fargs) (.mk operator args) := by
        refine ⟨?_, ?_, ?_, ?_, ?_⟩
        · simp only [okOperation, Bool.and_eq_true]
          refine ⟨⟨foldrel_okArgs hfrel, foldrel_fireCond hfrel hfire⟩, ?_⟩
          simp only [unifyArgsOk, Bool.or_eq_true, decide_eq_true_eq] at hulen ⊢
          rcases hulen with h | h
          · exact Or.inl h
          · right
            rw [hfrel.length_eq]
            exact h
        · exact foldrel_count hfrel
        · rcases foldrel_eq_or_lt hfrel with heq | hlt
          · exact Or.inl (by rw [heq])
          · exact Or.inr hlt
        · intro hl
          simp only [listOp, Bool.and_eq_true] at hl ⊢
          exact ⟨⟨⟨⟨foldrel_okArgs hfrel, foldrel_fireCond hfrel hfire⟩, by
            simp only [unifyArgsOk, Bool.or_eq_true, decide_eq_true_eq] at hulen ⊢
            rcases hulen with h | h
            · exact Or.inl h
            · right
              rw [hfrel.length_eq]
              exact h⟩, hl.1.2⟩, foldrel_dotArgs hfrel hl.2⟩
        · by_cases hDot : operator = .Dot
          · subst hDot
            intro hin
            cases args with
            | nil => simp [dotArgOk] at hin
            | cons v0 rest =>
              cases rest with
              | nil => cases v0 <;> simp [dotArgOk] at hin
              | cons x rest2 =>
                cases rest2 with
                | cons y rest3 => cases v0 <;> simp [dotArgOk] at hin
                | nil =>
                  cases v0 with
                  | Variable sym =>
                    simp only [dotArgOk, decide_eq_true_eq] at hin
                    cases hfrel with
                    | cons h1 htail =>
                      cases htail with
                      | cons h2 htail2 =>
                        cases htail2 with
                        | nil =>
                          rcases h1.2.2.1 with heq | hlt
                          · rw [heq]
                            simp [dotArgOk, hin]
                          · exact absurd hlt (by simp [countValue])
                  | Number n => simp [dotArgOk] at hin
                  | String s => simp [dotArgOk] at hin
                  | Boolean b => simp [dotArgOk] at hin
                  | Pattern p => simp [dotArgOk] at hin
                  | Expression op2 => simp [dotArgOk] at hin
                  | Partial c => simp [dotArgOk] at hin
          · intro _
            exact dotArgOk_of_ne_dot operator fargs hDot
      by_cases hU : operator = .Unify
      · subst hU
        cases args with
        | nil => simp [unifyArgsOk] at hulen
        | cons left rest1 =>
          cases rest1 with
          | nil => simp [unifyArgsOk] at hulen
          | cons right restArgs =>
            have hargs3 : okValue left = true ∧ okValue right = true ∧
                okArgs restArgs = true := by
              simpa [okArgs, Bool.and_eq_true, and_assoc] using hargs
            cases left with
            | Partial c =>
              cases c with
              | mk cops cv =>
                cases right with
                | Expression e =>
                  have hce : countValue (.Expression e) = 0 := by
                    simp only [fireCondB, Bool.and_eq_true, Bool.or_eq_true,
                      Bool.not_eq_true', beq_iff_eq, isPartialValue] at hfire
                    rcases hfire.1 with hbad | h0
                    · cases hbad
                    · exact h0
                  obtain ⟨ts, hmo, hok_ts, hdot_ts, hnp_ts, hcount_ts⟩ :=
                    map_ops_spec (.Expression e) hargs3.2.1 hce rfl cops hargs3.1
                  refine ⟨.mk .And ts, ?_, ?_, ?_, ?_, ?_, ?_⟩
                  · simp [fold_operation, Constraints.operations, hmo]
                  · simp only [okOperation, Bool.and_eq_true]
                    exact ⟨⟨hok_ts, fireCond_of_no_partials hnp_ts⟩, rfl⟩
                  · simp only [countOperation, countArgs, countValue, countConstraints] at hce hcount_ts ⊢
                    omega
                  · right
                    simp only [countOperation, countArgs, countValue, countConstraints] at hce hcount_ts ⊢
                    omega
                  · intro _
                    simp only [listOp, Bool.and_eq_true]
                    exact ⟨⟨⟨⟨hok_ts, fireCond_of_no_partials hnp_ts⟩, rfl⟩, rfl⟩, hdot_ts⟩
                  · intro _
                    rfl
                | Partial c2 =>
                  exfalso
                  simp only [fireCondB, Bool.and_eq_true, Bool.or_eq_true,
                    Bool.not_eq_true', beq_iff_eq, isPartialValue] at hfire
                  rcases hfire.1 with hbad | h0
                  · cases hbad
                  · cases c2 with
                    | mk c2ops c2v =>
                      simp [countValue, countConstraints] at h0
                | Number n => exact ⟨_, by simp [fold_operation, hfa], hgen⟩
                | String s => exact ⟨_, by simp [fold_operation, hfa], hgen⟩
                | Boolean b => exact ⟨_, by simp [fold_operation, hfa], hgen⟩
                | Variable sym => exact ⟨_, by simp [fold_operation, hfa], hgen⟩
                | Pattern p => exact ⟨_, by simp [fold_operation, hfa], hgen⟩
            | Expression e =>
              cases right with
              | Partial c =>
                cases c with
                | mk cops cv =>
                  have hce : countValue (.Expression e) = 0 := by
                    simp only [fireCondB, Bool.and_eq_true, Bool.or_eq_true,
                      Bool.not_eq_true', beq_iff_eq, isPartialValue] at hfire
                    rcases hfire.2 with hbad | h0
                    · cases hbad
                    · exact h0
                  obtain ⟨ts, hmo, hok_ts, hdot_ts, hnp_ts, hcount_ts⟩ :=
                    map_ops_spec (.Expression e) hargs3.1 hce rfl cops hargs3.2.1
                  refine ⟨.mk .And ts, ?_, ?_, ?_, ?_, ?_, ?_⟩
                  · simp [fold_operation, Constraints.operations, hmo]
                  · simp only [okOperation, Bool.and_eq_true]
                    exact ⟨⟨hok_ts, fireCond_of_no_partials hnp_ts⟩, rfl⟩
                  · simp only [countOperation, countArgs, countValue, countConstraints] at hce hcount_ts ⊢
                    omega
                  · right
                    simp only [countOperation, countArgs, countValue, countConstraints] at hce hcount_ts ⊢
                    omega
                  · intro _
                    simp only [listOp, Bool.and_eq_true]
                    exact ⟨⟨⟨⟨hok_ts, fireCond_of_no_partials hnp_ts⟩, rfl⟩, rfl⟩, hdot_ts⟩
                  · intro _
                    rfl
              | Number n => exact ⟨_, by simp [fold_operation, hfa], hgen⟩
              | String s => exact ⟨_, by simp [fold_operation, hfa], hgen⟩
              | Boolean b => exact ⟨_, by simp [fold_operation, hfa], hgen⟩
              | Variable sym => exact ⟨_, by simp [fold_operation, hfa], hgen⟩
              | Pattern p => exact ⟨_, by simp [fold_operation, hfa], hgen⟩
              | Expression e2 => exact ⟨_, by simp [fold_operation, hfa], hgen⟩
            | Number n => cases right <;> exact ⟨_, by simp [fold_operation, hfa], hgen⟩
            | String s => cases right <;> exact ⟨_, by simp [fold_operation, hfa], hgen⟩
            | Boolean b => cases right <;> exact ⟨_, by simp [fold_operation, hfa], hgen⟩
            | Variable sym => cases right <;> exact ⟨_, by simp [fold_operation, hfa], hgen⟩
            | Pattern p => cases right <;> exact ⟨_, by simp [fold_operation, hfa], hgen⟩
      · exact ⟨.mk operator fargs, by simp [fold_operation, hU, hfa], hgen⟩

end

theorem applyCall_valid (c : Constraints) (x : AccCall) (hx : x.valid = true) :
    applyCall c x = some (Constraints.mk (c.operations ++ [x.op]) c.name) := by
  cases x with
  | unifyCall t => rfl
  | compareCall operator t =>
    simp only [AccCall.valid] at hx
    simp [applyCall, Constraints.compare, hx, AccCall.op, Constraints.variable_term]
  | isaCall t => rfl

theorem applyCalls_ops (calls : List AccCall) : ∀ (c : Constraints),
    (∀ x ∈ calls, x.valid = true) →
    applyCalls c calls = some (Constraints.mk (c.operations ++ calls.map AccCall.op) c.name) := by
  induction calls with
  | nil => intro c _; cases c; simp [applyCalls, Constraints.operations, Constraints.name]
  | cons x rest ih =>
    intro c hv
    have hx : x.valid = true := hv x (by simp)
    simp only [applyCalls, applyCall_valid c x hx]
    have := ih (Constraints.mk (c.operations ++ [x.op]) c.name) (fun y hy => hv y (by simp [hy]))
    simpa [Constraints.operations, Constraints.name] using this

/-- C2: `lookup(field, value)`, under the precondition that `field` is a
string and `value` a variable, appends exactly the operation
`Unify(value, Dot(receiver, field))` at the end of the operation list and
returns a `Partial` wrapping a new, empty accumulator for `value`'s
symbol. -/
theorem claim_C2_lookup (c : Constraints) (field value : Term) (s : String) (name : Symbol)
    (hf : field = Value.String s) (hv : value = Value.Variable name) :
    c.lookup field value =
      some (Constraints.mk
        (c.operations ++
          [.mk .Unify [value,
            Term.new_temporary (.Expression (.mk .Dot [c.variable_term, field]))]])
        c.name,
        Term.new_temporary (.Partial (Constraints.new name))) := by
  subst hf hv
  rfl

/-- Witness for C2 at a concrete accumulator, field and value. -/
theorem claim_C2_lookup_witness :
    (Constraints.new ⟨"a"⟩).lookup (Value.String "f") (Value.Variable ⟨"_v"⟩) =
      some (Constraints.mk
        ((Constraints.new ⟨"a"⟩).operations ++
          [.mk .Unify [Value.Variable ⟨"_v"⟩,
            Term.new_temporary (.Expression (.mk .Dot
              [(Constraints.new ⟨"a"⟩).variable_term, Value.String "f"]))]])
        (Constraints.new ⟨"a"⟩).name,
        Term.new_temporary (.Partial (Constraints.new ⟨"_v"⟩))) :=
  claim_C2_lookup (Constraints.new ⟨"a"⟩) _ _ "f" ⟨"_v"⟩ rfl rfl

/-- C3: `isa(t)` appends `Isa(receiver, t)` to the operation list, and the
returned check is seeded with the operations recorded before the call (the
appended `Isa` is not among them), the proposed tag extracted from `t`
(`none` when `t` is not an instance pattern), no pending result, and call
id 0. -/
theorem claim_C3_isa (c : Constraints) (other : Term) :
    (c.isa other).1 =
      Constraints.mk (c.operations ++ [.mk .Isa [c.variable_term, other]]) c.name ∧
    (c.isa other).2 = some ⟨c.operations, proposedTagOf other, none, 0⟩ := by
  constructor
  · rfl
  · cases other with
    | Pattern p => cases p <;> rfl
    | Number n => rfl
    | String s => rfl
    | Boolean b => rfl
    | Variable sym => rfl
    | Expression op => rfl
    | Partial cp => rfl

/-- C6: `external_question_result(call_id, answer)` returns the
invalid-state error exactly when `call_id` differs from `last_call_id`; on
that path the check (in particular its pending result) is unchanged; on a
match it records the answer and returns success. -/
theorem claim_C6_resume (self : IsaConstraintCheck) (call_id : Nat) (answer : Bool) :
    ((∃ e, (self.external_question_result call_id answer).1 = .error e) ↔
      call_id ≠ self.last_call_id) ∧
    (call_id ≠ self.last_call_id → (self.external_question_result call_id answer).2 = self) ∧
    (call_id = self.last_call_id →
      self.external_question_result call_id answer = (.ok (), { self with result := some answer })) := by
  unfold IsaConstraintCheck.external_question_result
  by_cases h : call_id = self.last_call_id <;> simp [h]

/-- Witness for C6 at a concrete check and call id (a mismatching id). -/
theorem claim_C6_resume_witness :
    ((∃ e, ((IsaConstraintCheck.mk [] none none 0).external_question_result 1 true).1 = .error e) ↔
      1 ≠ (IsaConstraintCheck.mk [] none none 0).last_call_id) ∧
    (1 ≠ (IsaConstraintCheck.mk [] none none 0).last_call_id →
      ((IsaConstraintCheck.mk [] none none 0).external_question_result 1 true).2 =
        IsaConstraintCheck.mk [] none none 0) ∧
    (1 = (IsaConstraintCheck.mk [] none none 0).last_call_id →
      (IsaConstraintCheck.mk [] none none 0).external_question_result 1 true =
        (.ok (), { IsaConstraintCheck.mk [] none none 0 with result := some true })) :=
  claim_C6_resume (IsaConstraintCheck.mk [] none none 0) 1 true

/-- C10: a freshly constructed check has `last_call_id = 0`, so
`resume(0, answer)` succeeds and records the answer rather than being
rejected. -/
theorem claim_C10_fresh_resume (existing : List Operation) (proposed : Operation) (answer : Bool)
    (chk : IsaConstraintCheck) (h : IsaConstraintCheck.new existing proposed = some chk) :
    chk.last_call_id = 0 ∧
    chk.external_question_result 0 answer = (.ok (), { chk with result := some answer }) := by
  unfold IsaConstraintCheck.new at h
  cases hl : proposed.args.getLast? with
  | none => rw [hl] at h; cases h
  | some right =>
    rw [hl] at h
    cases h
    exact ⟨rfl, by simp [IsaConstraintCheck.external_question_result]⟩

/-- Witness for C10: a fresh check built from a two-argument `Isa`
operation accepts `resume(0, true)`. -/
theorem claim_C10_fresh_resume_witness :
    (IsaConstraintCheck.mk [] (some ⟨"Post"⟩) none 0).last_call_id = 0 ∧
    (IsaConstraintCheck.mk [] (some ⟨"Post"⟩) none 0).external_question_result 0 true =
      (.ok (), { IsaConstraintCheck.mk [] (some ⟨"Post"⟩) none 0 with result := some true }) :=
  claim_C10_fresh_resume []
    (.mk .Isa [Value.Variable ⟨"_this"⟩, Value.Pattern (.Instance ⟨"Post"⟩)]) true _ rfl

/-- C7: a sequence of N `unify`/`compare`/`isa` calls (each `compare` with
an operator from the comparison family) appends exactly one operation per
call, each with the receiver as first argument, and `into_expression()`
yields an `And` expression whose N operands are the recorded operations,
each wrapped as its own expression term, in call order. -/
theorem claim_C7_accumulation (v : Symbol) (calls : List AccCall)
    (hvalid : ∀ x ∈ calls, x.valid = true) :
    ∃ c', applyCalls (Constraints.new v) calls = some c' ∧
      c'.operations = calls.map AccCall.op ∧
      (∀ op ∈ c'.operations,
        op.args.head? = some (Term.new_temporary (.Variable ⟨"_this"⟩))) ∧
      c'.into_expression = Term.new_temporary (.Expression (.mk .And
        (calls.map (fun x => Term.new_temporary (.Expression x.op))))) := by
  refine ⟨Constraints.mk (calls.map AccCall.op) v, ?_, rfl, ?_, ?_⟩
  · simpa [Constraints.new, Constraints.operations, Constraints.name] using
      applyCalls_ops calls (Constraints.new v) hvalid
  · intro op hop
    simp only [Constraints.operations, List.mem_map] at hop
    obtain ⟨x, _, rfl⟩ := hop
    cases x <;> rfl
  · simp [Constraints.into_expression, Constraints.operations, List.map_map]
    rfl

/-- Witness for C7 on a concrete three-call sequence. -/
theorem claim_C7_accumulation_witness :
    ∃ c' : Constraints, applyCalls (Constraints.new ⟨"a"⟩)
        ([AccCall.unifyCall (Value.Number 1), AccCall.compareCall .Gt (Value.Number 0),
          AccCall.isaCall (Value.Pattern (.Instance ⟨"Post"⟩))]) = some c' ∧
      c'.operations = List.map AccCall.op
        [AccCall.unifyCall (Value.Number 1), AccCall.compareCall .Gt (Value.Number 0),
          AccCall.isaCall (Value.Pattern (.Instance ⟨"Post"⟩))] ∧
      (∀ op ∈ c'.operations,
        op.args.head? = some (Term.new_temporary (.Variable ⟨"_this"⟩))) ∧
      c'.into_expression = Term.new_temporary (.Expression (.mk .And
        (List.map (fun x => Term.new_temporary (.Expression x.op))
          [AccCall.unifyCall (Value.Number 1), AccCall.compareCall .Gt (Value.Number 0),
            AccCall.isaCall (Value.Pattern (.Instance ⟨"Post"⟩))]))) :=
  claim_C7_accumulation ⟨"a"⟩ _ (by decide)

/-- C1 counterexample: an operand `Dot(_this, "a")` is neither a bare
receiver reference nor (with the non-`Dot`-rooted replacement `And()`)
covered by the `Dot`-into-`Dot` case, so the claim says it is left
unchanged; `sub_this` nonetheless replaces it outright by the
replacement. -/
theorem claim_C1_counterexample :
    isDotExpression (Value.Expression (.mk .Dot [.Variable ⟨"_this"⟩, .String "a"])) = true ∧
    isThisVariable (Value.Expression (.mk .Dot [.Variable ⟨"_this"⟩, .String "a"])) = false ∧
    isDotExpression (Value.Expression (.mk .And [])) = false ∧
    sub_this (Value.Expression (.mk .Dot [.Variable ⟨"_this"⟩, .String "a"]))
        (Value.Expression (.mk .And [])) =
      some (Value.Expression (.mk .And [])) ∧
    (Value.Expression (.mk .And []) : Term) ≠
      Value.Expression (.mk .Dot [.Variable ⟨"_this"⟩, .String "a"]) := by
  refine ⟨rfl, rfl, rfl, rfl, ?_⟩
  decide

/-- C1 (amended): a `Dot` operand meeting a `Dot`-rooted replacement is
rewritten to `Dot(R, field)`; a bare receiver reference is replaced
outright by `R`; a `Dot(receiver, field)` operand meeting a
non-`Dot`-rooted replacement is also replaced outright by `R`; an operand
that is neither a `Dot` expression nor a bare receiver reference is left
unchanged. -/
theorem claim_C1_substitution (term replacement : Term) :
    (∀ args a1, term = Value.Expression (.mk .Dot args) → args[1]? = some a1 →
      isDotExpression replacement = true →
      sub_this term replacement = some (Value.Expression (.mk .Dot [replacement, a1]))) ∧
    (isThisVariable term = true → sub_this term replacement = some replacement) ∧
    (∀ f, term = Value.Expression (.mk .Dot [Value.Variable ⟨"_this"⟩, f]) →
      isDotExpression replacement = false →
      sub_this term replacement = some replacement) ∧
    (isDotExpression term = false → isThisVariable term = false →
      sub_this term replacement = some term) := by
  refine ⟨?_, ?_, ?_, ?_⟩
  · intro args a1 ht h1 hr
    subst ht
    cases replacement with
    | Expression op =>
      cases op with
      | mk operator rargs =>
        cases operator <;> simp [isDotExpression] at hr
        simp [sub_this, h1, Term.clone_with_value]
    | Number n => simp [isDotExpression] at hr
    | String s => simp [isDotExpression] at hr
    | Boolean b => simp [isDotExpression] at hr
    | Variable sym => simp [isDotExpression] at hr
    | Pattern p => simp [isDotExpression] at hr
    | Partial c => simp [isDotExpression] at hr
  · intro h
    cases term with
    | Variable sym =>
      simp only [isThisVariable, decide_eq_true_eq] at h
      cases replacement <;> simp [sub_this, is_this_arg, h]
    | Number n => simp [isThisVariable] at h
    | String s => simp [isThisVariable] at h
    | Boolean b => simp [isThisVariable] at h
    | Pattern p => simp [isThisVariable] at h
    | Expression op => simp [isThisVariable] at h
    | Partial c => simp [isThisVariable] at h
  · intro f ht hr
    subst ht
    cases replacement with
    | Expression op =>
      cases op with
      | mk operator rargs =>
        cases operator <;> simp [isDotExpression] at hr <;>
          simp [sub_this, is_this_arg]
    | Number n => simp [sub_this, is_this_arg]
    | String s => simp [sub_this, is_this_arg]
    | Boolean b => simp [sub_this, is_this_arg]
    | Variable sym => simp [sub_this, is_this_arg]
    | Pattern p => simp [sub_this, is_this_arg]
    | Partial c => simp [sub_this, is_this_arg]
  · intro hd ht
    cases term with
    | Variable sym =>
      have hne : ¬ sym.name = "_this" := by
        intro hh
        simp [isThisVariable, hh] at ht
      cases replacement <;> simp [sub_this, is_this_arg, hne]
    | Expression op =>
      cases op with
      | mk operator targs =>
        cases operator <;> simp [isDotExpression] at hd <;>
          cases replacement <;> simp [sub_this, is_this_arg]
    | Number n => cases replacement <;> simp [sub_this, is_this_arg]
    | String s => cases replacement <;> simp [sub_this, is_this_arg]
    | Boolean b => cases replacement <;> simp [sub_this, is_this_arg]
    | Pattern p => cases replacement <;> simp [sub_this, is_this_arg]
    | Partial c => cases replacement <;> simp [sub_this, is_this_arg]

/-- Witness for C1's amended substitution rule at a concrete `Dot`-operand
and `Dot`-rooted replacement. -/
theorem claim_C1_substitution_witness :
    (∀ args a1,
      (Value.Expression (.mk .Dot [.Variable ⟨"_this"⟩, .String "a"]) : Term) =
        Value.Expression (.mk .Dot args) → args[1]? = some a1 →
      isDotExpression (Value.Expression (.mk .Dot [.Variable ⟨"_this"⟩, .String "b"])) = true →
      sub_this (Value.Expression (.mk .Dot [.Variable ⟨"_this"⟩, .String "a"]))
          (Value.Expression (.mk .Dot [.Variable ⟨"_this"⟩, .String "b"])) =
        some (Value.Expression (.mk .Dot
          [Value.Expression (.mk .Dot [.Variable ⟨"_this"⟩, .String "b"]), a1]))) ∧
    (isThisVariable (Value.Expression (.mk .Dot [.Variable ⟨"_this"⟩, .String "a"])) = true →
      sub_this (Value.Expression (.mk .Dot [.Variable ⟨"_this"⟩, .String "a"]))
          (Value.Expression (.mk .Dot [.Variable ⟨"_this"⟩, .String "b"])) =
        some (Value.Expression (.mk .Dot [.Variable ⟨"_this"⟩, .String "b"]))) ∧
    (∀ f, (Value.Expression (.mk .Dot [.Variable ⟨"_this"⟩, .String "a"]) : Term) =
        Value.Expression (.mk .Dot [Value.Variable ⟨"_this"⟩, f]) →
      isDotExpression (Value.Expression (.mk .Dot [.Variable ⟨"_this"⟩, .String "b"])) = false →
      sub_this (Value.Expression (.mk .Dot [.Variable ⟨"_this"⟩, .String "a"]))
          (Value.Expression (.mk .Dot [.Variable ⟨"_this"⟩, .String "b"])) =
        some (Value.Expression (.mk .Dot [.Variable ⟨"_this"⟩, .String "b"]))) ∧
    (isDotExpression (Value.Expression (.mk .Dot [.Variable ⟨"_this"⟩, .String "a"])) = false →
      isThisVariable (Value.Expression (.mk .Dot [.Variable ⟨"_this"⟩, .String "a"])) = false →
      sub_this (Value.Expression (.mk .Dot [.Variable ⟨"_this"⟩, .String "a"]))
          (Value.Expression (.mk .Dot [.Variable ⟨"_this"⟩, .String "b"])) =
        some (Value.Expression (.mk .Dot [.Variable ⟨"_this"⟩, .String "a"]))) :=
  claim_C1_substitution (Value.Expression (.mk .Dot [.Variable ⟨"_this"⟩, .String "a"]))
    (Value.Expression (.mk .Dot [.Variable ⟨"_this"⟩, .String "b"]))

theorem check_constraint_cases (ptag : Option Symbol) (op : Operation) (lastId ctr : Nat) :
    (∃ tag p, isaInstanceTag op = some tag ∧ ptag = some p ∧
      IsaConstraintCheck.check_constraint ptag op lastId ctr =
        some (some (.ExternalIsSubclass ctr p tag), ctr, ctr + 1)) ∨
    (isaInstanceTag op = none ∧
      IsaConstraintCheck.check_constraint ptag op lastId ctr = some (none, lastId, ctr)) ∨
    IsaConstraintCheck.check_constraint ptag op lastId ctr = none := by
  unfold IsaConstraintCheck.check_constraint isaInstanceTag
  by_cases hop : op.operator = .Isa
  · rw [if_pos hop, if_neg (by simp [hop])]
    cases hl : op.args.getLast? with
    | none => right; right; rfl
    | some right =>
      cases right with
      | Pattern p =>
        cases p with
        | Instance tag =>
          cases ptag with
          | none => right; right; rfl
          | some p' => left; exact ⟨tag, p', rfl, rfl, rfl⟩
      | Number n => right; left; exact ⟨rfl, rfl⟩
      | String s => right; left; exact ⟨rfl, rfl⟩
      | Boolean b => right; left; exact ⟨rfl, rfl⟩
      | Variable sym => right; left; exact ⟨rfl, rfl⟩
      | Expression o2 => right; left; exact ⟨rfl, rfl⟩
      | Partial c => right; left; exact ⟨rfl, rfl⟩
  · rw [if_neg hop, if_pos hop]
    right; left; exact ⟨rfl, rfl⟩

theorem check_constraint_skip (ptag : Option Symbol) (op : Operation) (lastId ctr : Nat)
    (hargs : op.operator = .Isa → op.args ≠ [])
    (hnone : isaInstanceTag op = none) :
    IsaConstraintCheck.check_constraint ptag op lastId ctr = some (none, lastId, ctr) := by
  rcases check_constraint_cases ptag op lastId ctr with ⟨tag, p, htag, _, _⟩ | ⟨_, hc⟩ | hc
  · rw [htag] at hnone; cases hnone
  · exact hc
  · exfalso
    unfold IsaConstraintCheck.check_constraint at hc
    by_cases hop : op.operator = .Isa
    · rw [if_neg (by simp [hop])] at hc
      cases hl : op.args.getLast? with
      | none => exact absurd (List.getLast?_eq_none_iff.mp hl) (hargs hop)
      | some right =>
        rw [hl] at hc
        unfold isaInstanceTag at hnone
        rw [if_pos hop, hl] at hnone
        cases right with
        | Pattern p =>
          cases p with
          | Instance tag => cases hnone
        | Number n => cases hc
        | String s => cases hc
        | Boolean b => cases hc
        | Variable sym => cases hc
        | Expression o2 => cases hc
        | Partial c => cases hc
    · rw [if_pos hop] at hc
      cases hc

theorem runLoop_no_conflict (ptag : Option Symbol) :
    ∀ (L : List Operation) (lastId ctr : Nat),
    (∀ op ∈ L, op.operator = .Isa → op.args ≠ []) →
    (∀ op ∈ L, isaInstanceTag op = none) →
    IsaConstraintCheck.runLoop ptag lastId ctr L = some (.Done true, [], lastId, ctr)
  | [], _, _, _, _ => rfl
  | op :: rest, lastId, ctr, hargs, hnone => by
    have h1 := check_constraint_skip ptag op lastId ctr (hargs op (by simp)) (hnone op (by simp))
    unfold IsaConstraintCheck.runLoop
    rw [h1]
    exact runLoop_no_conflict ptag rest lastId ctr
      (fun o ho => hargs o (by simp [ho])) (fun o ho => hnone o (by simp [ho]))

theorem runLoop_event (ptag : Option Symbol) :
    ∀ (L : List Operation) (lastId ctr id : Nat) (l r : Symbol)
      (remaining : List Operation) (lastId' ctr' : Nat),
    IsaConstraintCheck.runLoop ptag lastId ctr L =
      some (.ExternalIsSubclass id l r, remaining, lastId', ctr') →
    ptag = some l ∧ id = ctr ∧ lastId' = id ∧ ctr' = ctr + 1 ∧
    ∃ skipped op rest, L = skipped ++ op :: rest ∧
      (∀ o ∈ skipped, isaInstanceTag o = none) ∧
      isaInstanceTag op = some r ∧ remaining = rest.reverse
  | [], lastId, ctr, id, l, r, remaining, lastId', ctr' => by
    intro h
    simp [IsaConstraintCheck.runLoop] at h
  | op :: rest, lastId, ctr, id, l, r, remaining, lastId', ctr' => by
    intro h
    unfold IsaConstraintCheck.runLoop at h
    rcases check_constraint_cases ptag op lastId ctr with ⟨tag, p, htag, hp, hc⟩ | ⟨htag, hc⟩ | hc
    · rw [hc] at h
      simp only [Option.some.injEq, Prod.mk.injEq, QueryEvent.ExternalIsSubclass.injEq] at h
      obtain ⟨⟨hid, hl, hr⟩, hrem, hlast, hctr⟩ := h
      subst hid hl hr
      refine ⟨hp, rfl, hlast.symm, hctr.symm, [], op, rest, rfl, ?_, htag, hrem.symm⟩
      intro o ho
      cases ho
    · rw [hc] at h
      obtain ⟨h1, h2, h3, h4, skipped, op', rest', hL, hsk, htag', hrem⟩ :=
        runLoop_event ptag rest lastId ctr id l r remaining lastId' ctr' h
      refine ⟨h1, h2, h3, h4, op :: skipped, op', rest', by rw [hL]; rfl, ?_, htag', hrem⟩
      intro o ho
      rcases List.mem_cons.mp ho with rfl | ho'
      · exact htag
      · exact hsk o ho'
    · rw [hc] at h
      cases h

/-- C4: a check whose proposed operand supplied no tag, or whose prior
operations (each well formed: an `Isa` has arguments) contain no `Isa`
with an instance-pattern right operand, completes with result `true` in a
single step, allocating no call id (the counter is returned unchanged), so
no oracle request is ever issued. -/
theorem claim_C4_no_conflict (self : IsaConstraintCheck) (ctr : Nat)
    (h : self.proposed_tag = none ∨
      (self.result ≠ some false ∧
        (∀ op ∈ self.existing, op.operator = .Isa → op.args ≠ []) ∧
        (∀ op ∈ self.existing, isaInstanceTag op = none))) :
    ∃ self', self.run ctr = some (.Done true, self', ctr) := by
  rcases h with hp | ⟨hres, hargs, hnone⟩
  · exact ⟨self, by simp [IsaConstraintCheck.run, hp]⟩
  · cases hp : self.proposed_tag with
    | none => exact ⟨self, by simp [IsaConstraintCheck.run, hp]⟩
    | some tag =>
      refine ⟨{ self with result := none, existing := [] }, ?_⟩
      have hloop := runLoop_no_conflict (some tag) self.existing.reverse self.last_call_id ctr
        (fun o ho => hargs o (List.mem_reverse.mp ho))
        (fun o ho => hnone o (List.mem_reverse.mp ho))
      simp [IsaConstraintCheck.run, hp, hres, hloop]

/-- Witness for C4: a check over one prior `Unify` operation (no `Isa`)
completes `true` at once with the counter untouched. -/
theorem claim_C4_no_conflict_witness :
    ∃ self', (IsaConstraintCheck.mk
        [.mk .Unify [Value.Variable ⟨"_this"⟩, .Number 1]] (some ⟨"Post"⟩) none 0).run 7 =
      some (.Done true, self', 7) :=
  claim_C4_no_conflict
    (IsaConstraintCheck.mk [.mk .Unify [Value.Variable ⟨"_this"⟩, .Number 1]]
      (some ⟨"Post"⟩) none 0) 7
    (Or.inr ⟨by decide, by decide, by decide⟩)

/-- C5: (a) a check resumed with answer `false` completes `false` on its
next step without issuing another request (the counter is unchanged);
(b) a step that issues a request scans the prior operations most recently
added first: the request carries the proposed tag and the tag of the first
`Isa`-with-instance-pattern found, every operation added after that one
matches no such shape, and the remaining prior list is what precedes it. -/
theorem claim_C5_short_circuit_scan :
    (∀ (self : IsaConstraintCheck) (tag : Symbol) (ctr : Nat),
      self.proposed_tag = some tag → self.result = some false →
      self.run ctr = some (.Done false, { self with result := none }, ctr)) ∧
    (∀ (self : IsaConstraintCheck) (ctr id : Nat) (l r : Symbol)
      (self' : IsaConstraintCheck) (ctr' : Nat),
      self.run ctr = some (.ExternalIsSubclass id l r, self', ctr') →
      self.proposed_tag = some l ∧ id = ctr ∧ ctr' = ctr + 1 ∧
      self'.last_call_id = id ∧ self'.result = none ∧
      ∃ pre op post, self.existing = pre ++ op :: post ∧
        (∀ o ∈ post, isaInstanceTag o = none) ∧
        isaInstanceTag op = some r ∧ self'.existing = pre) := by
  constructor
  · intro self tag ctr hp hres
    simp [IsaConstraintCheck.run, hp, hres]
  · intro self ctr id l r self' ctr' h
    unfold IsaConstraintCheck.run at h
    cases hp : self.proposed_tag with
    | none => rw [hp] at h; simp at h
    | some tag =>
      rw [hp] at h
      simp only [Option.isNone_some, Bool.false_eq_true, if_false] at h
      by_cases hres : self.result = some false
      · rw [if_pos hres] at h
        simp at h
      · rw [if_neg hres] at h
        cases hrl : IsaConstraintCheck.runLoop (some tag) self.last_call_id ctr
            self.existing.reverse with
        | none => rw [hrl] at h; cases h
        | some out =>
          obtain ⟨ev, existing', lastId', ctrOut⟩ := out
          rw [hrl] at h
          simp only [Option.some.injEq, Prod.mk.injEq] at h
          obtain ⟨hev, hself, hctr⟩ := h
          subst hev
          obtain ⟨h1, h2, h3, h4, skipped, op, rest, hL, hsk, htag, hrem⟩ :=
            runLoop_event _ _ _ _ _ _ _ _ _ _ hrl
          refine ⟨h1, h2, by rw [← hctr, h4], ?_, ?_, ?_⟩
          · rw [← hself]; exact h3
          · rw [← hself]
          · refine ⟨rest.reverse, op, skipped.reverse, ?_, ?_, htag, ?_⟩
            · have : self.existing = (skipped ++ op :: rest).reverse := by
                have hx := congrArg List.reverse hL
                simpa using hx
              rw [this]
              simp
            · intro o ho
              exact hsk o (List.mem_reverse.mp ho)
            · rw [← hself]
              exact hrem

/-- Witness for C5 at a concrete resumed-with-false check: the next step
completes `false` with the counter unchanged. -/
theorem claim_C5_short_circuit_scan_witness :
    (IsaConstraintCheck.mk [] (some ⟨"Post"⟩) (some false) 5).run 9 =
      some (.Done false,
        { IsaConstraintCheck.mk [] (some ⟨"Post"⟩) (some false) 5 with result := none }, 9) :=
  claim_C5_short_circuit_scan.1 (IsaConstraintCheck.mk [] (some ⟨"Post"⟩) (some false) 5)
    ⟨"Post"⟩ 9 rfl rfl

theorem simplifyLoop_reaches : ∀ (fuel : Nat) (t : Term), okValue t = true →
    countValue t < fuel →
    ∃ t', simplifyLoop fuel t = some t' ∧ fold_term t' = some t' ∧ okValue t' = true
  | 0, _, _, hlt => absurd hlt (by omega)
  | fuel + 1, t, hok, hlt => by
    obtain ⟨t1, hf, hrel⟩ := fold_term_spec t hok
    by_cases heq : t1 = t
    · refine ⟨t1, ?_, ?_, hrel.1⟩
      · simp [simplifyLoop, hf, heq]
      · rw [heq] at hf
        rw [heq]
        exact hf
    · have hdec : countValue t1 < countValue t := by
        rcases hrel.2.2.1 with h | h
        · exact absurd h heq
        · exact h
      obtain ⟨t', hloop, hfix, hok'⟩ :=
        simplifyLoop_reaches fuel t1 hrel.1 (by omega)
      refine ⟨t', ?_, hfix, hok'⟩
      simp [simplifyLoop, hf, heq, hloop]

theorem simplifyRoots_spec : ∀ (bs mid : Bindings), simplifyRoots bs = some mid →
    mid.map Prod.fst = bs.map Prod.fst ∧
    (∀ p ∈ bs, isPartialValue p.2 = false → p ∈ mid)
  | [], mid, h => by
    cases h
    exact ⟨rfl, by simp⟩
  | (name, val) :: rest, mid, h => by
    simp only [simplifyRoots] at h
    cases hval : (if !name.is_temporary_var && isPartialValue val then
        simplifyPartialTerm val else some val) with
    | none => rw [hval] at h; cases h
    | some val' =>
      rw [hval] at h
      cases hrest : simplifyRoots rest with
      | none => rw [hrest] at h; cases h
      | some rest' =>
        rw [hrest] at h
        cases h
        obtain ⟨hkeys, hmem⟩ := simplifyRoots_spec rest rest' hrest
        constructor
        · simp [hkeys]
        · intro p hp hnp
          rcases List.mem_cons.mp hp with rfl | hp'
          · have h2 : isPartialValue val = false := by simpa using hnp
            rw [h2] at hval
            simp only [Bool.and_false, Bool.false_eq_true, if_false,
              Option.some.injEq] at hval
            rw [← hval]
            exact List.mem_cons_self _ _
          · exact List.mem_cons_of_mem _ (hmem p hp' hnp)

theorem to_expressions_keys (l : Bindings) :
    (to_expressions l).map Prod.fst = l.map Prod.fst := by
  induction l with
  | nil => rfl
  | cons p rest ih =>
    obtain ⟨name, val⟩ := p
    cases val <;> simpa [to_expressions] using ih

theorem to_expressions_no_partial (l : Bindings) (p : Symbol × Term)
    (hp : p ∈ to_expressions l) : isPartialValue p.2 = false := by
  simp only [to_expressions, List.mem_map] at hp
  obtain ⟨q, _, rfl⟩ := hp
  obtain ⟨name, val⟩ := q
  cases val <;>
    simp [isPartialValue, Constraints.into_expression, Term.new_temporary]

theorem to_expressions_mem (l : Bindings) (p : Symbol × Term)
    (hp : p ∈ l) (hnp : isPartialValue p.2 = false) : p ∈ to_expressions l := by
  simp only [to_expressions, List.mem_map]
  refine ⟨p, hp, ?_⟩
  obtain ⟨name, val⟩ := p
  cases val with
  | Partial c => simp [isPartialValue] at hnp
  | Number n => rfl
  | String s => rfl
  | Boolean b => rfl
  | Variable sym => rfl
  | Pattern pt => rfl
  | Expression op => rfl

theorem remove_temporaries_keys (l : Bindings) :
    (remove_temporaries l).map Prod.fst =
      (l.map Prod.fst).filter (fun s => !s.is_temporary_var) := by
  induction l with
  | nil => rfl
  | cons p rest ih =>
    cases hp : p.1.is_temporary_var <;>
      simp [remove_temporaries, List.filter, hp] at ih ⊢ <;>
      exact ih

/-- C8: whenever `simplify_bindings` returns a binding set, that set holds
no temporary-symbol binding and no accumulator-as-term value; its key list
is the input's key list with the temporaries filtered out, and every
non-temporary binding whose value was not a partial is returned
untouched. -/
theorem claim_C8_simplify_bindings (bindings out : Bindings)
    (h : simplify_bindings bindings = some out) :
    (∀ p ∈ out, p.1.is_temporary_var = false) ∧
    (∀ p ∈ out, isPartialValue p.2 = false) ∧
    out.map Prod.fst = (bindings.map Prod.fst).filter (fun s => !s.is_temporary_var) ∧
    (∀ p ∈ bindings, p.1.is_temporary_var = false → isPartialValue p.2 = false →
      p ∈ out) := by
  simp only [simplify_bindings] at h
  cases hmid : simplifyRoots bindings with
  | none => rw [hmid] at h; cases h
  | some mid =>
    rw [hmid] at h
    cases h
    obtain ⟨hkeys, hmem⟩ := simplifyRoots_spec bindings mid hmid
    refine ⟨?_, ?_, ?_, ?_⟩
    · intro p hp
      have := (List.mem_filter.mp hp).2
      simpa using this
    · intro p hp
      exact to_expressions_no_partial mid p (List.mem_filter.mp hp).1
    · rw [remove_temporaries_keys, to_expressions_keys, hkeys]
    · intro p hp hnt hnp
      refine List.mem_filter.mpr ⟨to_expressions_mem mid p (hmem p hp hnp) hnp, ?_⟩
      simp [hnt]

/-- Witness for C8 at a concrete binding set with one root, one temporary
and one scalar binding. -/
theorem claim_C8_simplify_bindings_witness :
    (∀ p ∈ ([(⟨"a"⟩, .Expression (.mk .And
        [.Expression (.mk .Gt [.Variable ⟨"_this"⟩, .Number 0])])),
        (⟨"b"⟩, Value.String "x")] : Bindings), p.1.is_temporary_var = false) ∧
    (∀ p ∈ ([(⟨"a"⟩, .Expression (.mk .And
        [.Expression (.mk .Gt [.Variable ⟨"_this"⟩, .Number 0])])),
        (⟨"b"⟩, Value.String "x")] : Bindings), isPartialValue p.2 = false) ∧
    ([(⟨"a"⟩, .Expression (.mk .And
        [.Expression (.mk .Gt [.Variable ⟨"_this"⟩, .Number 0])])),
        (⟨"b"⟩, Value.String "x")] : Bindings).map Prod.fst =
      (([(⟨"a"⟩, .Partial (.mk [.mk .Gt [.Variable ⟨"_this"⟩, .Number 0]] ⟨"a"⟩)),
        (⟨"_t"⟩, Value.Number 7), (⟨"b"⟩, Value.String "x")] : Bindings).map
          Prod.fst).filter (fun s => !s.is_temporary_var) ∧
    (∀ p ∈ ([(⟨"a"⟩, .Partial (.mk [.mk .Gt [.Variable ⟨"_this"⟩, .Number 0]] ⟨"a"⟩)),
        (⟨"_t"⟩, Value.Number 7), (⟨"b"⟩, Value.String "x")] : Bindings),
      p.1.is_temporary_var = false → isPartialValue p.2 = false →
      p ∈ ([(⟨"a"⟩, .Expression (.mk .And
        [.Expression (.mk .Gt [.Variable ⟨"_this"⟩, .Number 0])])),
        (⟨"b"⟩, Value.String "x")] : Bindings)) :=
  claim_C8_simplify_bindings
    [(⟨"a"⟩, .Partial (.mk [.mk .Gt [.Variable ⟨"_this"⟩, .Number 0]] ⟨"a"⟩)),
      (⟨"_t"⟩, Value.Number 7), (⟨"b"⟩, Value.String "x")]
    [(⟨"a"⟩, .Expression (.mk .And
        [.Expression (.mk .Gt [.Variable ⟨"_this"⟩, .Number 0])])),
      (⟨"b"⟩, Value.String "x")]
    (by decide)

/-- C9: on an accumulator-built term (formalized by the structural
invariant `okValue`: partials carry accumulator-shaped operation lists and
every `Unify` with a partial operand has a `Partial`-free opposite
operand), the Simplifier's fixed-point loop terminates of its own accord:
each changing pass strictly decreases the number of `Partial` nodes, so
after at most `countValue t + 1` passes the folded term is structurally
equal to the previous pass's term, with no externally imposed iteration
cap doing the work. -/
theorem claim_C9_termination (t : Term) (h : okValue t = true) :
    ∃ t', simplifyPartialTerm t = some t' ∧ fold_term t' = some t' := by
  obtain ⟨t', hloop, hfix, _⟩ :=
    simplifyLoop_reaches (countValue t + 1) t h (by omega)
  exact ⟨t', hloop, hfix⟩

/-- Witness for C9 at a concrete two-level accumulator-built term (a root
partial whose lookup placeholder is itself constrained). -/
theorem claim_C9_termination_witness :
    ∃ t', simplifyPartialTerm (.Partial (.mk
        [.mk .Unify [.Partial (.mk [.mk .Gt [.Variable ⟨"_this"⟩, .Number 0]] ⟨"_v"⟩),
          .Expression (.mk .Dot [.Variable ⟨"_this"⟩, .String "a"])]] ⟨"a"⟩)) = some t' ∧
      fold_term t' = some t' :=
  claim_C9_termination (.Partial (.mk
    [.mk .Unify [.Partial (.mk [.mk .Gt [.Variable ⟨"_this"⟩, .Number 0]] ⟨"_v"⟩),
      .Expression (.mk .Dot [.Variable ⟨"_this"⟩, .String "a"])]] ⟨"a"⟩)) (by decide)

end Polar
